import Mathlib

/-!
# Verification of SIEAdmin's resource-governance daemon

Shallow embedding of the SIEAdmin repository (`cpu.py`, `disk.py`,
`utils.py`, `core/system.py`) in Lean 4, together with theorems settling
the specification's claims about it.

Python floats are modelled as `ℚ`; Python `int` as `ℤ` (or `ℕ` where the
source value is a count or byte size).  Python dictionaries are modelled
as association lists in insertion order, with `update-or-append`
insertion (`dictInsert`, `dictAdd`) mirroring CPython's insertion-order
semantics.  Fallible Python code (raised exceptions) is embedded as
`Except Unit`.
-/

namespace SIEAdmin

/-- Embedding of `core/system.py`'s `ProcessState`: one row of the
process-table snapshot.  `pid` is an `int`, `cpu`/`mem` are `float`s;
the remaining `top` columns are kept as the raw strings the constructor
stores. -/
structure ProcessState where
  pid : ℤ
  user : String
  pr : String
  ni : String
  virt : String
  res : String
  shr : String
  s : String
  cpu : ℚ
  mem : ℚ
  command : String
  deriving Repr, DecidableEq

/-- An enforcement action: the external command the daemon issues.
`renicePid pid pri` is `renice -n pri -p pid`, `reniceUid uid pri` is
`renice -n pri -u uid`, `kill pid` is `kill -9 pid`. -/
inductive Action where
  | renicePid (pid : ℤ) (pri : ℤ)
  | reniceUid (uid : ℤ) (pri : ℤ)
  | kill (pid : ℤ)
  deriving Repr, DecidableEq

/-- Python 3's built-in `round` to an integer: round half to even
(banker's rounding), on an exact rational. -/
def pyRound (q : ℚ) : ℤ :=
  if q - ⌊q⌋ < 1/2 then ⌊q⌋
  else if 1/2 < q - ⌊q⌋ then ⌊q⌋ + 1
  else if ⌊q⌋ % 2 = 0 then ⌊q⌋ else ⌊q⌋ + 1

/-- Embedding of `utils.round_by`: `round(x / round_step) * round_step`. -/
def round_by (x round_step : ℚ) : ℚ :=
  (pyRound (x / round_step) : ℚ) * round_step

/-- Embedding of `utils.build_rescaler`: the returned closure `_wrapped`.
Returns `0` when `src_min == src_max`, otherwise rescales linearly. -/
def build_rescaler (src_min src_max tar_min tar_max : ℚ) : ℚ → ℚ :=
  fun x =>
    if src_min = src_max then 0
    else (tar_max - tar_min) / (src_max - src_min) * (x - src_min) + tar_min

/-! ## `disk.py` — the disk-usage monitor -/

/-- Embedding of `DiskUsageMonitor.is_critical_process`: membership of the
process's command in the fixed critical-process tuple. -/
def is_critical_process (p : ProcessState) : Bool :=
  p.command ∈ ["systemd", "(sd-pam)", "sshd", "sh", "zsh", "bash", "tmux",
               "vim", "nano", "ssh-agent", "ssh", "rm", "mv", "ls", "cd",
               "autossh"]

/-- Embedding of `DiskUsageMonitor.kill_quota_exceeded_processes`.
`disk_usage` is the `user → du size` dictionary in insertion order,
`process_states` the snapshot `self.ss.process_states`.  A user at or
under quota is skipped (`usage <= self.quota_bytes: continue`); otherwise
every owned non-critical process is killed. -/
def kill_quota_exceeded_processes (quota_bytes : ℕ)
    (process_states : List ProcessState)
    (disk_usage : List (String × ℕ)) : List Action :=
  (disk_usage.map (fun e =>
    if e.2 ≤ quota_bytes then []
    else (process_states.filter
        (fun p => p.user == e.1 && !(is_critical_process p))).map
      (fun p => Action.kill p.pid))).flatten

/-- Model of Python's `str.startswith('.')`, applied to a directory name:
true iff the first character is `'.'`. -/
def startsWithDot (s : String) : Bool :=
  match s.data with
  | [] => false
  | c :: _ => c == '.'

/-- Embedding of `DiskUsageMonitor.load_usage`: `names` is
`os.listdir('/home')` in listing order and `du_size n` the integer size
`du -s /home/n` reports.  The loop skips a name iff it starts with a dot
and stores every other name's size in the dictionary.  (There is no other
filtering in the source.) -/
def load_usage (du_size : String → ℕ) (names : List String) :
    List (String × ℕ) :=
  (names.filter (fun n => !(startsWithDot n))).map (fun n => (n, du_size n))

/-- Modelled from the spec: the load pass as the specification describes
it, which additionally skips any name appearing in a configured exclusion
list.  Stated only for comparison with `load_usage`. -/
def load_usage_per_spec (excluded : List String) (du_size : String → ℕ)
    (names : List String) : List (String × ℕ) :=
  (names.filter (fun n => !(startsWithDot n) && !(excluded.contains n))).map
    (fun n => (n, du_size n))

/-! ## Startup configuration checks (`cpu.py` / `disk.py` `__init__`) -/

/-- Attribute names certainly present on a `PrioritiyScheduler` instance
at the moment of the scheduler lookup in `__init__`: the class attribute
`ss`, the methods `cpu.py` defines (`__init__` unmangled — a
double-trailing-underscore name is not mangled — and the private ones
under their mangled names), and the instance attributes assigned on the
preceding lines.  Modelled from the spec: the base class `Daemon` (its
module is not among the sources) contributes the process-control surface
`start`, `stop`, `restart` and the `pidfile`.  This list is a known
subset only: the dunder attributes `object` contributes (`__repr__`,
`__class__`, `__doc__`, ...) and any further `Daemon` attributes enter
the model through the `extra` parameter of `priority_scheduler_init`. -/
def priority_scheduler_attrs : List String :=
  ["ss", "cpu_intervene", "ram_intervene", "interval", "__init__",
   "load_stats", "user_cpu_fair_scheduler", "user_ram_penalty_scheduler",
   "cpu_ram_hybrid_scheduler", "none_scheduler", "run",
   "_PrioritiyScheduler__exit_now", "_PrioritiyScheduler__exited",
   "_PrioritiyScheduler__exit", "_PrioritiyScheduler__renice",
   "start", "stop", "restart", "pidfile"]

/-- The names of the four scheduler methods (the spec's enumeration
fair-share-only / ram-penalty-only / hybrid / reset-to-neutral). -/
def scheduler_method_names : List String :=
  ["user_cpu_fair_scheduler", "user_ram_penalty_scheduler",
   "cpu_ram_hybrid_scheduler", "none_scheduler"]

/-- Embedding of the scheduler lookup in `PrioritiyScheduler.__init__`:
`getattr(self, scheduler, None)` is `None` — and an `AttributeError` is
raised — exactly when the name is not an attribute of the instance.  The
instance's attribute set is `priority_scheduler_attrs` together with
`extra`: the names not fixed by `cpu.py` and the spec (the dunder
attributes inherited from `object`, and whatever else the `Daemon` base
class defines).  The model is parametric in `extra` rather than
pretending that open set is closed. -/
def priority_scheduler_init (extra : List String) (scheduler : String) :
    Except Unit Unit :=
  if scheduler ∈ priority_scheduler_attrs ∨ scheduler ∈ extra then .ok ()
  else .error ()

/-- Model of Python's `\d` character class. -/
def isDigitChar (c : Char) : Bool :=
  48 ≤ c.toNat && c.toNat ≤ 57

/-- Model of the character class `[kKmMgG]`. -/
def isUnitChar (c : Char) : Bool :=
  c == 'k' || c == 'K' || c == 'm' || c == 'M' || c == 'g' || c == 'G'

/-- Splits a maximal leading digit run off a character list. -/
def takeDigits : List Char → List Char × List Char
  | [] => ([], [])
  | c :: cs =>
    if isDigitChar c then
      match takeDigits cs with
      | (ds, rest) => (c :: ds, rest)
    else ([], c :: cs)

/-- Model of `re.findall(r'(\d+)([kKmMgG]{1})', s)[0]`: the first match of
the pattern, scanning start positions left to right.  At a given start the
greedy `\d+` takes the maximal digit run; backtracking it cannot help,
because every shorter run is followed by a digit, which is not a unit
character — so a match starts there iff the run is non-empty and the
character right after it is a unit letter. -/
def findQuotaMatch : List Char → Option (List Char × Char)
  | [] => none
  | c :: cs =>
    if isDigitChar c then
      match takeDigits (c :: cs) with
      | (ds, u :: _) => if isUnitChar u then some (ds, u) else findQuotaMatch cs
      | (_, []) => findQuotaMatch cs
    else findQuotaMatch cs

/-- Value of a decimal digit string, as Python's `int` reads it. -/
def digitsToNat (ds : List Char) : ℕ :=
  ds.foldl (fun acc c => 10 * acc + (c.toNat - 48)) 0

/-- Embedding of the quota parsing in `DiskUsageMonitor.__init__`:
`re.findall(...)[0]` raises `IndexError` when the string holds no match;
otherwise the magnitude is multiplied by `1024` for `m`/`M` and by
`1024 ** 2` for `g`/`G` and left unscaled for `k`/`K`. -/
def parse_user_quota (s : List Char) : Except Unit ℕ :=
  match findQuotaMatch s with
  | none => .error ()
  | some (ds, u) =>
    let n := digitsToNat ds
    if u == 'm' || u == 'M' then .ok (n * 1024)
    else if u == 'g' || u == 'G' then .ok (n * 1024 ^ 2)
    else .ok n

/-! ## `cpu.py` — the priority scheduler -/

/-- Python truthiness of an optional integer argument defaulting to
`None`: falsy iff absent or zero. -/
def pyFalsy : Option ℤ → Bool
  | none => true
  | some n => n == 0

/-- Embedding of `PrioritiyScheduler.__renice`: raises `ValueError` when
neither `pid` nor `uid` is truthy; renices by pid when `pid` is truthy,
otherwise by uid. -/
def renice (pid uid : Option ℤ) (pri : ℤ) : Except Unit Action :=
  if pyFalsy pid && pyFalsy uid then .error ()
  else if !(pyFalsy pid) then .ok (.renicePid (pid.getD 0) pri)
  else .ok (.reniceUid (uid.getD 0) pri)

/-- Update-or-append insertion of `k ↦ old + v` into an insertion-ordered
dictionary, as `defaultdict(float)`'s `d[k] += v` behaves (a missing key
starts at `0`). -/
def dictAdd (k : String) (v : ℚ) : List (String × ℚ) → List (String × ℚ)
  | [] => [(k, v)]
  | e :: rest => if e.1 = k then (e.1, e.2 + v) :: rest else e :: dictAdd k v rest

/-- Sum of memory percentages over a list of processes. -/
def memSum (ps : List ProcessState) : ℚ :=
  (ps.map ProcessState.mem).sum

/-- The `user_ram` accumulation loop of `user_ram_penalty_scheduler`: for
each `(user, processes)` dict entry the inner loop adds every process's
`mem` to `user_ram[user]`, totalling one `dictAdd` of the user's mem sum
per entry. -/
def userRamTotals : List (String × List ProcessState) → List (String × ℚ) →
    List (String × ℚ)
  | [], acc => acc
  | e :: rest, acc => userRamTotals rest (dictAdd e.1 (memSum e.2) acc)

/-- The enforcement loop of `user_ram_penalty_scheduler`: every user whose
accumulated RAM strictly exceeds `ram_intervene` is reniced by uid to 19. -/
def ramPenaltyLoop (get_uid : String → ℤ) (ram_intervene : ℚ) :
    List (String × ℚ) → Except Unit (List Action)
  | [] => .ok []
  | e :: rest =>
    if ram_intervene < e.2 then
      match renice none (some (get_uid e.1)) 19 with
      | .error err => .error err
      | .ok a =>
        match ramPenaltyLoop get_uid ram_intervene rest with
        | .error err => .error err
        | .ok as => .ok (a :: as)
    else ramPenaltyLoop get_uid ram_intervene rest

/-- Embedding of `PrioritiyScheduler.user_ram_penalty_scheduler`.  `stats`
is the `processes` dictionary (`user → owned processes`) in insertion
order; `get_uid` the name-to-uid lookup `core.system.get_uid` performs
against the OS. -/
def user_ram_penalty_scheduler (get_uid : String → ℤ) (ram_intervene : ℚ)
    (stats : List (String × List ProcessState)) : Except Unit (List Action) :=
  ramPenaltyLoop get_uid ram_intervene (userRamTotals stats [])

/-! ## The CPU fair-share scheduler (`user_cpu_fair_scheduler`) -/

/-- Update-or-append insertion into the `priorities` dictionary
(`priorities[p.pid] = ...`), preserving insertion order. -/
def dictInsert (k : ℤ) (v : ℚ) : List (ℤ × ℚ) → List (ℤ × ℚ)
  | [] => [(k, v)]
  | e :: rest => if e.1 = k then (k, v) :: rest else e :: dictInsert k v rest

/-- Python's `x or 1` applied to the result of `round_by`: a zero is
replaced by `1`. -/
def orOne (r : ℚ) : ℚ := if r = 0 then 1 else r

/-- Inner loop of `user_cpu_fair_scheduler` over one user's processes:
`priorities[p.pid] = (round_by(total/p.cpu, 100) or 1) * user_ni`.
Raises `ZeroDivisionError` when a process reports zero CPU. -/
def procLoop (user_ni total : ℚ) :
    List ProcessState → List (ℤ × ℚ) → Except Unit (List (ℤ × ℚ))
  | [], acc => .ok acc
  | p :: ps, acc =>
    if p.cpu = 0 then .error ()
    else procLoop user_ni total ps
      (dictInsert p.pid (orOne (round_by (total / p.cpu) 100) * user_ni) acc)

/-- Outer loop of `user_cpu_fair_scheduler` over the `cnts.items()`
dictionary: `user_ni = user_processes / min_user_processes` (true
division, raising `ZeroDivisionError` when the minimum is zero) and
`total_process_weight = sum(p.cpu for p in processes[user])`, then the
inner loop. -/
def userLoop (min_user_processes : ℕ) :
    List (String × List ProcessState) → List (ℤ × ℚ) →
    Except Unit (List (ℤ × ℚ))
  | [], acc => .ok acc
  | e :: rest, acc =>
    if min_user_processes = 0 then .error ()
    else
      match procLoop ((e.2.length : ℚ) / (min_user_processes : ℚ))
          ((e.2.map ProcessState.cpu).sum) e.2 acc with
      | .error err => .error err
      | .ok acc' => userLoop min_user_processes rest acc'

/-- The final issuing loop: one `__renice(pid=pid, pri=pri)` per
`priorities` entry, in order. -/
def collectRenices : List (ℤ × ℤ) → Except Unit (List Action)
  | [] => .ok []
  | e :: rest =>
    match renice (some e.1) none e.2 with
    | .error err => .error err
    | .ok a =>
      match collectRenices rest with
      | .error err => .error err
      | .ok as => .ok (a :: as)

/-- Embedding of `PrioritiyScheduler.user_cpu_fair_scheduler`.  `stats`
carries both arguments `load_stats` builds: the `processes` dict and the
`cnts` dict, whose value for each user is by construction the length of
that user's process list, so one association list in insertion order
represents both.  `min(cnts.values())` and `max(priorities.values())`
raise `ValueError` on empty sequences, hence the two error branches. -/
def user_cpu_fair_scheduler (stats : List (String × List ProcessState)) :
    Except Unit (List Action) :=
  match stats with
  | [] => .error ()
  | s :: ss =>
    match userLoop ((ss.map (fun e => e.2.length)).foldl min s.2.length)
        (s :: ss) [] with
    | .error err => .error err
    | .ok priorities =>
      match priorities with
      | [] => .error ()
      | q :: qs =>
        collectRenices ((q :: qs).map (fun e =>
          (e.1, pyRound (build_rescaler 1 ((qs.map Prod.snd).foldl max q.2)
            0 19 e.2))))

/-! Spec-side quantities for the fair-share algorithm, written from the
spec's formulas to compare with the embedding above. -/

/-- `min(cnts.values())`: the smallest per-user process count (`0` is a
placeholder for the empty dict, on which the code raises instead). -/
def minCnt : List (String × List ProcessState) → ℕ
  | [] => 0
  | s :: ss => (ss.map (fun e => e.2.length)).foldl min s.2.length

/-- The spec's per-user weight: `user_process_count / min_user_processes`. -/
def user_weight (m : ℕ) (ps : List ProcessState) : ℚ :=
  (ps.length : ℚ) / (m : ℚ)

/-- The spec's per-process weight:
`round_to_nearest_multiple(total_user_cpu / process_cpu, 100)`, replaced
by `1` when the rounded result is `0`. -/
def process_weight (ps : List ProcessState) (p : ProcessState) : ℚ :=
  orOne (round_by ((ps.map ProcessState.cpu).sum / p.cpu) 100)

/-- The spec's raw priority: `process_weight * user_weight`. -/
def raw_priority (m : ℕ) (ps : List ProcessState) (p : ProcessState) : ℚ :=
  process_weight ps p * user_weight m ps

/-- All raw priorities in iteration order, keyed by pid. -/
def rawPriorities (m : ℕ)
    (stats : List (String × List ProcessState)) : List (ℤ × ℚ) :=
  (stats.map (fun e => e.2.map (fun p => (p.pid, raw_priority m e.2 p)))).flatten

/-- `max(priorities.values())` over the raw priorities (`0` is a
placeholder for the empty dict, on which the code raises instead). -/
def maxRaw (stats : List (String × List ProcessState)) : ℚ :=
  match rawPriorities (minCnt stats) stats with
  | [] => 0
  | q :: qs => (qs.map Prod.snd).foldl max q.2

/-- The niceness the fair-share pass assigns to a raw priority `v`:
rescale `[1, max]` to `[0, 19]` and round. -/
def final_niceness (stats : List (String × List ProcessState)) (v : ℚ) : ℤ :=
  pyRound (build_rescaler 1 (maxRaw stats) 0 19 v)

/-! ## `core/system.py` — the snapshot collector -/

/-- Embedding of `valid_process_state` inside
`SystemStatus.process_states`: a parsed `top` row survives iff its pid
appears in the `ps axo pid,user` listing and its CPU is not below 10.
The source keys `pid_to_user` by the pid's decimal string; the model keys
it by the pid itself. -/
def valid_process_state (pid_to_user : List (ℤ × String))
    (p : ProcessState) : Bool :=
  pid_to_user.any (fun e => e.1 == p.pid) && !(decide (p.cpu < 10))

/-- Embedding of `SystemStatus.process_states`: keep the valid rows and
overwrite each survivor's (possibly truncated) user name with the one the
pid listing reports. -/
def process_states (pid_to_user : List (ℤ × String))
    (rows : List ProcessState) : List ProcessState :=
  (rows.filter (valid_process_state pid_to_user)).map (fun p =>
    match pid_to_user.find? (fun e => e.1 == p.pid) with
    | some e => { p with user := e.2 }
    | none => p)

/-! ## The governor loop (`PrioritiyScheduler.run`) -/

/-- Embedding of `PrioritiyScheduler.none_scheduler`: one
`__renice(pid=p.pid)` — priority `0` — per managed process, users in
dict order, each user's processes in list order. -/
def none_scheduler (stats : List (String × List ProcessState)) :
    Except Unit (List Action) :=
  collectRenices
    ((stats.map (fun e => e.2.map (fun p => (p.pid, (0:ℤ))))).flatten)

/-- One observed iteration of the governor loop: the 1-minute load the
cycle reads, the stats `load_stats` returns if the load is high enough,
and whether the SIGTERM-set shutdown flag is observed during that
iteration's one-second sleep ticks. -/
structure CycleInput where
  load_1m : ℚ
  stats : List (String × List ProcessState)
  exit_during_sleep : Bool

/-- The `while True` loop of `PrioritiyScheduler.run`, cycle by cycle.
Below the load threshold a cycle only logs and sleeps; otherwise the
configured scheduler runs on that cycle's stats — an exception it raises
leaves the loop for the `except` clause (the actions the failing cycle
issued before raising are not tracked).  A shutdown flag observed during
sleep returns from the loop.  Returns the actions the cycles issued and
whether the loop exited within the observed inputs (`false`: it was
still running when the trace ended). -/
def runCycles (cpu_intervene : ℚ)
    (sched : List (String × List ProcessState) → Except Unit (List Action)) :
    List CycleInput → List Action × Bool
  | [] => ([], false)
  | c :: rest =>
    match (if c.load_1m < cpu_intervene then Except.ok [] else sched c.stats) with
    | .error _ => ([], true)
    | .ok acts =>
      if c.exit_during_sleep then (acts, true)
      else
        ((acts ++ (runCycles cpu_intervene sched rest).1),
          (runCycles cpu_intervene sched rest).2)

/-- Embedding of `PrioritiyScheduler.run`: the loop, the `except` clause
catching any cycle exception, and the `finally` clause that reloads
stats and runs `none_scheduler` before the daemon stops.  `final_stats`
is what `load_stats` returns at restore time.  Returns all issued
actions and whether the daemon stopped within the observed inputs; the
restore actions are appended exactly when it stopped.  (Were
`none_scheduler` itself to raise — possible only for a zero pid — the
restore renices issued before the raise are not tracked.) -/
def run (cpu_intervene : ℚ)
    (sched : List (String × List ProcessState) → Except Unit (List Action))
    (inputs : List CycleInput)
    (final_stats : List (String × List ProcessState)) : List Action × Bool :=
  if (runCycles cpu_intervene sched inputs).2 then
    match none_scheduler final_stats with
    | .ok restore => ((runCycles cpu_intervene sched inputs).1 ++ restore, true)
    | .error _ => ((runCycles cpu_intervene sched inputs).1, true)
  else runCycles cpu_intervene sched inputs

/-! ## Basic facts about `pyRound` -/

theorem pyRound_intCast (n : ℤ) : pyRound (n : ℚ) = n := by
  simp [pyRound]

theorem floor_le_pyRound (q : ℚ) : ⌊q⌋ ≤ pyRound q := by
  unfold pyRound
  split
  · exact le_refl _
  · split
    · omega
    · split <;> omega

theorem pyRound_le_floor_add_one (q : ℚ) : pyRound q ≤ ⌊q⌋ + 1 := by
  unfold pyRound
  split
  · omega
  · split
    · omega
    · split <;> omega

/-- `pyRound` never goes below an integer lower bound. -/
theorem le_pyRound {a : ℤ} {q : ℚ} (h : (a : ℚ) ≤ q) : a ≤ pyRound q :=
  le_trans (Int.le_floor.mpr h) (floor_le_pyRound q)

/-- `pyRound` never exceeds an integer upper bound. -/
theorem pyRound_le {b : ℤ} {q : ℚ} (h : q ≤ (b : ℚ)) : pyRound q ≤ b := by
  unfold pyRound
  have hfl : ⌊q⌋ ≤ b := Int.floor_le_floor h |>.trans_eq (Int.floor_intCast b)
  split
  · exact hfl
  · rename_i h1
    push_neg at h1
    have hq : (⌊q⌋ : ℚ) + 1/2 ≤ q := by linarith
    have : ⌊q⌋ + 1 ≤ b := by
      by_contra hc
      push_neg at hc
      have hb : b ≤ ⌊q⌋ := by omega
      have : (b : ℚ) ≤ (⌊q⌋ : ℚ) := by exact_mod_cast hb
      have := Int.floor_le q
      linarith
    split
    · omega
    · split <;> omega

/-- Floor of an integer plus one half. -/
theorem floor_intCast_add_half (k : ℤ) : ⌊(k : ℚ) + 1/2⌋ = k := by
  rw [Int.floor_eq_iff]
  refine ⟨by linarith, ?_⟩
  linarith

/-- `pyRound` at an exact half: ties go to the even integer. -/
theorem pyRound_half (k : ℤ) :
    pyRound ((k : ℚ) + 1/2) = if k % 2 = 0 then k else k + 1 := by
  unfold pyRound
  rw [floor_intCast_add_half]
  have h : (k : ℚ) + 1/2 - k = 1/2 := by ring
  rw [h]
  norm_num

/-- C5: for `src_min < src_max` and `tar_min ≤ tar_max`, the rescaler built
by `build_rescaler` maps every `x ∈ [src_min, src_max]` into
`[tar_min, tar_max]` by the linear formula, and whenever
`src_min == src_max` it returns `0` for every input. -/
theorem build_rescaler_correct (a b c d : ℚ) (hab : a < b) (hcd : c ≤ d) :
    (∀ x, a ≤ x → x ≤ b →
      build_rescaler a b c d x = (d - c) / (b - a) * (x - a) + c ∧
      c ≤ build_rescaler a b c d x ∧ build_rescaler a b c d x ≤ d) ∧
    (∀ a' c' d' y : ℚ, build_rescaler a' a' c' d' y = 0) := by
  constructor
  · intro x hx1 hx2
    have hne : a ≠ b := ne_of_lt hab
    have hba : (0:ℚ) < b - a := by linarith
    have hr : (0:ℚ) ≤ (d - c) / (b - a) := div_nonneg (by linarith) (le_of_lt hba)
    unfold build_rescaler
    rw [if_neg hne]
    refine ⟨rfl, ?_, ?_⟩
    · have := mul_nonneg hr (by linarith : (0:ℚ) ≤ x - a)
      linarith
    · have hmono : (d - c) / (b - a) * (x - a) ≤ (d - c) / (b - a) * (b - a) :=
        mul_le_mul_of_nonneg_left (by linarith) hr
      have hcancel : (d - c) / (b - a) * (b - a) = d - c :=
        div_mul_cancel₀ _ (ne_of_gt hba)
      linarith [hmono.trans_eq hcancel]
  · intro a' c' d' y
    unfold build_rescaler
    rw [if_pos rfl]

/-- Witness for `build_rescaler_correct` at `[0,10] → [0,19]`, `x = 5`. -/
theorem build_rescaler_correct_witness :
    (0:ℚ) < 10 ∧ (0:ℚ) ≤ 19 ∧
      ((0:ℚ) ≤ build_rescaler 0 10 0 19 5 ∧ build_rescaler 0 10 0 19 5 ≤ 19) :=
  ⟨by norm_num, by norm_num,
    ((build_rescaler_correct 0 10 0 19 (by norm_num) (by norm_num)).1 5
      (by norm_num) (by norm_num)).2⟩

/-- C7: `round_by 165 50 = 150`, `round_by 175 50 = 200`, and in general a
value exactly halfway between two consecutive multiples of `50` rounds to
the multiple with the even quotient (banker's rounding). -/
theorem round_by_ties_to_even :
    round_by 165 50 = 150 ∧ round_by 175 50 = 200 ∧
    ∀ k : ℤ, round_by (50 * (k : ℚ) + 25) 50 =
      if k % 2 = 0 then 50 * (k : ℚ) else 50 * ((k : ℚ) + 1) := by
  have h165 : (165:ℚ) / 50 = 3 + 3/10 := by norm_num
  have h175 : (175:ℚ) / 50 = 3 + 1/2 := by norm_num
  refine ⟨?_, ?_, ?_⟩
  · unfold round_by pyRound
    rw [h165]
    have : ⌊(3:ℚ) + 3/10⌋ = 3 := by
      rw [Int.floor_eq_iff]
      norm_num
    rw [this]
    norm_num
  · unfold round_by
    rw [h175, show ((3:ℚ) + 1/2) = ((3:ℤ) : ℚ) + 1/2 by norm_num, pyRound_half]
    norm_num
  · intro k
    unfold round_by
    have hdiv : (50 * (k : ℚ) + 25) / 50 = (k : ℚ) + 1/2 := by field_simp; ring
    rw [hdiv, pyRound_half]
    split <;> push_cast <;> ring

/-! ## Theorems about the disk monitor and startup validation -/

theorem mem_ite_nil {α : Type} {c : Prop} [Decidable c] {l : List α} {a : α} :
    (a ∈ if c then ([] : List α) else l) ↔ ¬c ∧ a ∈ l := by
  split <;> simp [*]

/-- Membership characterization of the quota-kill pass. -/
theorem mem_kill_quota_iff (quota : ℕ) (states : List ProcessState)
    (usage : List (String × ℕ)) (a : Action) :
    a ∈ kill_quota_exceeded_processes quota states usage ↔
      ∃ e ∈ usage, quota < e.2 ∧ ∃ p ∈ states, p.user = e.1 ∧
        is_critical_process p = false ∧ a = Action.kill p.pid := by
  unfold kill_quota_exceeded_processes
  simp only [List.mem_flatten, List.mem_map, List.mem_filter]
  constructor
  · rintro ⟨l, ⟨e, he, rfl⟩, hal⟩
    rw [mem_ite_nil] at hal
    obtain ⟨hq, hmem⟩ := hal
    simp only [List.mem_map, List.mem_filter] at hmem
    obtain ⟨p, ⟨hp, hcond⟩, rfl⟩ := hmem
    rw [Bool.and_eq_true, beq_iff_eq, Bool.not_eq_true'] at hcond
    exact ⟨e, he, by omega, p, hp, hcond.1, hcond.2, rfl⟩
  · rintro ⟨e, he, hq, p, hp, hu, hcrit, rfl⟩
    refine ⟨_, ⟨e, he, rfl⟩, ?_⟩
    rw [mem_ite_nil]
    refine ⟨by omega, ?_⟩
    simp only [List.mem_map, List.mem_filter]
    refine ⟨p, ⟨hp, ?_⟩, rfl⟩
    rw [Bool.and_eq_true, beq_iff_eq, Bool.not_eq_true']
    exact ⟨hu, hcrit⟩

/-- C4: a user strictly over quota has every owned non-critical process
killed; a critical process is never killed by this rule; and no process of
a user within quota is killed.  `hpids`/`husers` are the snapshot/dict
invariants (unique pids, unique directory names). -/
theorem kill_quota_exceeded_correct (quota : ℕ) (states : List ProcessState)
    (usage : List (String × ℕ))
    (hpids : (states.map ProcessState.pid).Nodup)
    (husers : (usage.map Prod.fst).Nodup) :
    ∀ e ∈ usage, ∀ p ∈ states, p.user = e.1 →
      ((quota < e.2 → is_critical_process p = false →
          Action.kill p.pid ∈ kill_quota_exceeded_processes quota states usage) ∧
       (is_critical_process p = true →
          Action.kill p.pid ∉ kill_quota_exceeded_processes quota states usage) ∧
       (e.2 ≤ quota →
          Action.kill p.pid ∉ kill_quota_exceeded_processes quota states usage)) := by
  intro e he p hp hup
  refine ⟨?_, ?_, ?_⟩
  · intro hq hcrit
    exact (mem_kill_quota_iff quota states usage _).mpr
      ⟨e, he, hq, p, hp, hup, hcrit, rfl⟩
  · intro hcrit hmem
    obtain ⟨e', _, _, q, hq, _, hqcrit, heq⟩ :=
      (mem_kill_quota_iff quota states usage _).mp hmem
    have hpid : q.pid = p.pid := by
      injection heq.symm
    have : q = p := List.inj_on_of_nodup_map hpids hq hp hpid
    rw [this] at hqcrit
    rw [hcrit] at hqcrit
    exact Bool.true_eq_false.mp hqcrit
  · intro hle hmem
    obtain ⟨e', he', hq', q, hq, huq, _, heq⟩ :=
      (mem_kill_quota_iff quota states usage _).mp hmem
    have hpid : q.pid = p.pid := by
      injection heq.symm
    have hqp : q = p := List.inj_on_of_nodup_map hpids hq hp hpid
    have hkey : e'.1 = e.1 := by rw [← huq, hqp, hup]
    have : e' = e := List.inj_on_of_nodup_map husers he' he hkey
    rw [this] at hq'
    omega

/-- Witness for `kill_quota_exceeded_correct`: user `bob` at usage 100 over
quota 10; a `python` process of `bob` is killed, the `bash` one is not. -/
theorem kill_quota_exceeded_correct_witness :
    Action.kill 7 ∈ kill_quota_exceeded_processes 10
      [⟨7, "bob", "20", "0", "1", "1", "1", "S", 50, 1, "python"⟩]
      [("bob", 100)] := by
  have h := kill_quota_exceeded_correct 10
    [⟨7, "bob", "20", "0", "1", "1", "1", "S", 50, 1, "python"⟩]
    [("bob", 100)] (by decide) (by decide)
    ("bob", 100) (by decide)
    ⟨7, "bob", "20", "0", "1", "1", "1", "S", 50, 1, "python"⟩ (by decide) (by decide)
  exact h.1 (by decide) (by decide)

/-- C6 counterexample: with `bob` on a configured exclusion list the
spec-described pass skips `bob`'s home directory, but `load_usage` as
implemented stores its usage anyway — the code consults no exclusion
list. -/
theorem load_usage_exclusion_counterexample :
    load_usage (fun _ => 5) ["bob"] = [("bob", 5)] ∧
    load_usage_per_spec ["bob"] (fun _ => 5) ["bob"] = [] := by
  constructor <;> rfl

/-- C6 amended: when the disk monitor loads per-user usage, a home
directory whose name starts with a dot is skipped and every other home
directory contributes its recursive size; no exclusion-list filtering
takes place. -/
theorem load_usage_skips_only_dot_names (du_size : String → ℕ)
    (names : List String) :
    (∀ n ∈ names, startsWithDot n = false →
      (n, du_size n) ∈ load_usage du_size names) ∧
    (∀ n ∈ names, startsWithDot n = true →
      ∀ v, (n, v) ∉ load_usage du_size names) ∧
    (∀ e ∈ load_usage du_size names,
      e.1 ∈ names ∧ startsWithDot e.1 = false ∧ e.2 = du_size e.1) := by
  refine ⟨?_, ?_, ?_⟩
  · intro n hn hdot
    simp only [load_usage, List.mem_map, List.mem_filter]
    exact ⟨n, ⟨hn, by rw [hdot]; rfl⟩, rfl⟩
  · intro n hn hdot v hmem
    simp only [load_usage, List.mem_map, List.mem_filter] at hmem
    obtain ⟨n', ⟨_, hdot'⟩, heq⟩ := hmem
    have : n' = n := congrArg Prod.fst heq
    rw [this, hdot] at hdot'
    simp at hdot'
  · intro e hmem
    simp only [load_usage, List.mem_map, List.mem_filter] at hmem
    obtain ⟨n, ⟨hn, hdot⟩, heq⟩ := hmem
    rw [← heq]
    exact ⟨hn, by simpa using hdot, rfl⟩

/-- Witness for `load_usage_skips_only_dot_names` on a listing with a
dot-directory and a user directory. -/
theorem load_usage_skips_only_dot_names_witness :
    ("alice", 3) ∈ load_usage (fun _ => 3) [".cache", "alice"] ∧
    ∀ v, (".cache", v) ∉ load_usage (fun _ => 3) [".cache", "alice"] := by
  refine ⟨?_, ?_⟩
  · exact (load_usage_skips_only_dot_names (fun _ => 3) [".cache", "alice"]).1
      "alice" (by decide) (by decide)
  · exact (load_usage_skips_only_dot_names (fun _ => 3) [".cache", "alice"]).2.1
      ".cache" (by decide) (by decide)

/-- C8 counterexample: `'load_stats'` is not one of the scheduler methods,
yet constructing `PrioritiyScheduler` with it raises nothing — `getattr`
finds the `load_stats` method, so the init check passes.  `load_stats`
is accepted because it is in the `cpu.py`-fixed attribute set, so the
choice of the `extra` attributes (here the empty list) is irrelevant. -/
theorem scheduler_lookup_counterexample :
    priority_scheduler_init [] "load_stats" = .ok () ∧
    "load_stats" ∉ scheduler_method_names := by
  exact ⟨by rfl, by decide⟩

/-- C8 amended: a scheduler name that is not an attribute of the
instance — neither among the attributes `cpu.py` and the spec fix nor
among the remaining attributes `extra` (`object`'s dunders, further
`Daemon` names) — raises at init, while every fixed attribute name,
scheduler method or not, is accepted whatever `extra` is; a quota string
containing no digit-run followed by a k/m/g unit letter raises at init;
and valid quota strings convert with k unscaled, m scaled by 1024, and g
by 1024². -/
theorem startup_config_errors (extra : List String) (s : String)
    (q : List Char)
    (hs1 : s ∉ priority_scheduler_attrs) (hs2 : s ∉ extra)
    (hq : findQuotaMatch q = none) :
    priority_scheduler_init extra s = .error () ∧
    (∀ t ∈ priority_scheduler_attrs,
      priority_scheduler_init extra t = .ok ()) ∧
    parse_user_quota q = .error () ∧
    parse_user_quota "20k".data = .ok 20 ∧
    parse_user_quota "20K".data = .ok 20 ∧
    parse_user_quota "20m".data = .ok (20 * 1024) ∧
    parse_user_quota "20M".data = .ok (20 * 1024) ∧
    parse_user_quota "20g".data = .ok (20 * 1024 ^ 2) ∧
    parse_user_quota "20G".data = .ok (20 * 1024 ^ 2) := by
  refine ⟨?_, ?_, ?_, by rfl, by rfl, by rfl, by rfl, by rfl, by rfl⟩
  · unfold priority_scheduler_init
    rw [if_neg]
    rintro (h | h)
    · exact hs1 h
    · exact hs2 h
  · intro t ht
    unfold priority_scheduler_init
    rw [if_pos (Or.inl ht)]
  · unfold parse_user_quota
    rw [hq]

/-- Witness for `startup_config_errors`: `extra` holding a representative
`object` dunder, the unknown name `nope`, and the quota string `abc`. -/
theorem startup_config_errors_witness :
    priority_scheduler_init ["__repr__"] "nope" = .error () ∧
    parse_user_quota "abc".data = .error () :=
  ⟨(startup_config_errors ["__repr__"] "nope" "abc".data
      (by decide) (by decide) (by decide)).1,
   (startup_config_errors ["__repr__"] "nope" "abc".data
      (by decide) (by decide) (by decide)).2.2.1⟩

/-! ## Theorems about the RAM-penalty scheduler -/

theorem dictAdd_fresh (k : String) (v : ℚ) (acc : List (String × ℚ))
    (h : k ∉ acc.map Prod.fst) : dictAdd k v acc = acc ++ [(k, v)] := by
  induction acc with
  | nil => rfl
  | cons e rest ih =>
    simp only [List.map_cons, List.mem_cons] at h
    push_neg at h
    unfold dictAdd
    rw [if_neg fun he => h.1 he.symm, ih h.2]
    rfl

theorem userRamTotals_eq (stats : List (String × List ProcessState)) :
    ∀ acc : List (String × ℚ), (stats.map Prod.fst).Nodup →
    (∀ e ∈ stats, e.1 ∉ acc.map Prod.fst) →
    userRamTotals stats acc = acc ++ stats.map (fun e => (e.1, memSum e.2)) := by
  induction stats with
  | nil => intro acc _ _; simp [userRamTotals]
  | cons e rest ih =>
    intro acc hnd hdisj
    simp only [List.map_cons, List.nodup_cons] at hnd
    unfold userRamTotals
    rw [dictAdd_fresh _ _ _ (hdisj e (by simp))]
    rw [ih (acc ++ [(e.1, memSum e.2)]) hnd.2 ?_]
    · simp
    · intro e' he'
      simp only [List.map_append, List.mem_append, List.map_cons,
        List.map_nil, List.mem_singleton]
      push_neg
      refine ⟨hdisj e' (by simp [he']), fun hk => ?_⟩
      exact hnd.1 (hk ▸ List.mem_map_of_mem Prod.fst he')

theorem ramPenaltyLoop_eq (get_uid : String → ℤ) (t : ℚ)
    (l : List (String × ℚ)) (h : ∀ e ∈ l, get_uid e.1 ≠ 0) :
    ramPenaltyLoop get_uid t l =
      .ok (l.filterMap (fun e => if t < e.2
        then some (Action.reniceUid (get_uid e.1) 19) else none)) := by
  induction l with
  | nil => rfl
  | cons e rest ih =>
    have hu : get_uid e.1 ≠ 0 := h e (by simp)
    have hr := ih fun e' he' => h e' (by simp [he'])
    unfold ramPenaltyLoop
    by_cases hc : t < e.2
    · rw [if_pos hc]
      have hren : renice none (some (get_uid e.1)) 19 =
          .ok (.reniceUid (get_uid e.1) 19) := by
        unfold renice pyFalsy
        simp [hu]
      rw [hren, hr]
      simp [List.filterMap_cons, hc]
    · rw [if_neg hc, hr]
      simp [List.filterMap_cons, hc]

theorem countP_key_unique {β : Type} (p : String × β → Bool) (k : String) :
    ∀ l : List (String × β), (l.map Prod.fst).Nodup →
    k ∈ l.map Prod.fst →
    (∀ e ∈ l, (p e = true ↔ e.1 = k)) →
    l.countP p = 1 := by
  intro l
  induction l with
  | nil => intro _ hk _; cases hk
  | cons e rest ih =>
    intro hnd hk hp
    simp only [List.map_cons, List.nodup_cons] at hnd
    rw [List.countP_cons]
    by_cases hke : e.1 = k
    · rw [(hp e (by simp)).mpr hke, if_pos rfl]
      have h0 : rest.countP p = 0 := by
        rw [List.countP_eq_zero]
        intro e' he' hpe'
        have : e'.1 = k := (hp e' (by simp [he'])).mp hpe'
        exact hnd.1 (hke ▸ this ▸ List.mem_map_of_mem Prod.fst he')
      omega
    · have hpe : ¬ p e = true := fun hpe => hke ((hp e (by simp)).mp hpe)
      rw [if_neg hpe]
      have hkr : k ∈ rest.map Prod.fst := by
        simp only [List.map_cons, List.mem_cons] at hk
        exact hk.resolve_left fun h => hke h.symm
      have := ih hnd.2 hkr fun e' he' => hp e' (by simp [he'])
      omega

theorem count_penalty_filterMap (get_uid : String → ℤ) (t : ℚ) (u : String) :
    ∀ totals : List (String × ℚ),
    (totals.filterMap (fun e => if t < e.2
        then some (Action.reniceUid (get_uid e.1) 19) else none)).count
      (Action.reniceUid (get_uid u) 19) =
    totals.countP (fun e => decide (t < e.2) && (get_uid e.1 == get_uid u)) := by
  intro totals
  induction totals with
  | nil => rfl
  | cons e rest ih =>
    simp only [List.filterMap_cons, List.countP_cons]
    by_cases hc : t < e.2
    · rw [if_pos hc, List.count_cons, ih]
      by_cases hu : get_uid e.1 = get_uid u
      · simp [hc, hu]
      · simp [hc, hu, Action.reniceUid.injEq]
    · rw [if_neg hc, ih]
      simp [hc]

/-- C3: a user whose summed memory percentage strictly exceeds the
threshold receives exactly one renice-by-uid action with priority 19; the
rule issues no action for a user whose sum does not exceed it, and every
action it issues is such a renice for some offending user.  `hkeys` is
the dict invariant, `huid`/`hinj` the OS facts that uids are nonzero and
distinct users have distinct uids. -/
theorem ram_penalty_correct (get_uid : String → ℤ) (t : ℚ)
    (stats : List (String × List ProcessState))
    (hkeys : (stats.map Prod.fst).Nodup)
    (huid : ∀ e ∈ stats, get_uid e.1 ≠ 0)
    (hinj : ∀ e ∈ stats, ∀ e' ∈ stats, get_uid e.1 = get_uid e'.1 → e.1 = e'.1) :
    ∃ acts, user_ram_penalty_scheduler get_uid t stats = .ok acts ∧
      (∀ e ∈ stats, t < memSum e.2 →
        acts.count (Action.reniceUid (get_uid e.1) 19) = 1) ∧
      (∀ e ∈ stats, ¬ t < memSum e.2 →
        ∀ pri, Action.reniceUid (get_uid e.1) pri ∉ acts) ∧
      (∀ a ∈ acts, ∃ e, e ∈ stats ∧ t < memSum e.2 ∧
        a = Action.reniceUid (get_uid e.1) 19) := by
  have htot : userRamTotals stats [] =
      stats.map (fun e => (e.1, memSum e.2)) :=
    userRamTotals_eq stats [] hkeys (by simp)
  have hkeys' : ((stats.map fun e => (e.1, memSum e.2)).map Prod.fst).Nodup := by
    rw [List.map_map]
    exact hkeys
  have huid' : ∀ e' ∈ stats.map (fun e => (e.1, memSum e.2)),
      get_uid e'.1 ≠ 0 := by
    intro e' he'
    simp only [List.mem_map] at he'
    obtain ⟨e, he, rfl⟩ := he'
    exact huid e he
  have hloop := ramPenaltyLoop_eq get_uid t
    (stats.map fun e => (e.1, memSum e.2)) huid'
  refine ⟨(stats.map fun e => (e.1, memSum e.2)).filterMap
    (fun e => if t < e.2 then some (Action.reniceUid (get_uid e.1) 19)
      else none), ?_, ?_, ?_, ?_⟩
  · unfold user_ram_penalty_scheduler
    rw [htot, hloop]
  · intro e he hover
    rw [count_penalty_filterMap]
    refine countP_key_unique _ e.1 _ hkeys' ?_ ?_
    · rw [List.map_map]
      exact List.mem_map_of_mem _ he
    · intro e' he'
      simp only [List.mem_map] at he'
      obtain ⟨q, hq, rfl⟩ := he'
      simp only [Bool.and_eq_true, decide_eq_true_eq, beq_iff_eq]
      constructor
      · rintro ⟨_, huq⟩
        exact hinj q hq e he huq
      · rintro hqe
        have : q = e := List.inj_on_of_nodup_map hkeys hq he hqe
        subst this
        exact ⟨hover, rfl⟩
  · intro e he hunder pri hmem
    rw [List.mem_filterMap] at hmem
    obtain ⟨q, hq, hsome⟩ := hmem
    by_cases hc : t < q.2
    · rw [if_pos hc] at hsome
      have hEq := Option.some.inj hsome
      have huq : get_uid q.1 = get_uid e.1 := (Action.reniceUid.injEq _ _ _ _).mp hEq |>.1
      simp only [List.mem_map] at hq
      obtain ⟨q', hq', rfl⟩ := hq
      have : q'.1 = e.1 := hinj q' hq' e he huq
      have hqe : q' = e := List.inj_on_of_nodup_map hkeys hq' he this
      subst hqe
      exact hunder hc
    · rw [if_neg hc] at hsome
      cases hsome
  · intro a hmem
    rw [List.mem_filterMap] at hmem
    obtain ⟨q, hq, hsome⟩ := hmem
    by_cases hc : t < q.2
    · rw [if_pos hc] at hsome
      simp only [List.mem_map] at hq
      obtain ⟨q', hq', rfl⟩ := hq
      exact ⟨q', hq', hc, (Option.some.inj hsome).symm⟩
    · rw [if_neg hc] at hsome
      cases hsome

/-- Witness for `ram_penalty_correct`: `bob` at 50% RAM over a 40%
threshold, `alice` at 1%. -/
theorem ram_penalty_correct_witness :
    ∃ acts, user_ram_penalty_scheduler
      (fun u => if u = "bob" then 1001 else 1002) 40
      [("bob", [⟨1, "bob", "20", "0", "1", "1", "1", "S", 50, 50, "python"⟩]),
       ("alice", [⟨2, "alice", "20", "0", "1", "1", "1", "S", 50, 1, "vim"⟩])] =
      .ok acts := by
  obtain ⟨acts, h, -, -, -⟩ := ram_penalty_correct
    (fun u => if u = "bob" then 1001 else 1002) 40
    [("bob", [⟨1, "bob", "20", "0", "1", "1", "1", "S", 50, 50, "python"⟩]),
     ("alice", [⟨2, "alice", "20", "0", "1", "1", "1", "S", 50, 1, "vim"⟩])]
    (by decide) (by decide) (by decide)
  exact ⟨acts, h⟩

/-! ## Theorems about the fair-share scheduler -/

theorem foldl_min_le_init {α : Type} [LinearOrder α] (l : List α) (c : α) :
    l.foldl min c ≤ c := by
  induction l generalizing c with
  | nil => exact le_refl c
  | cons x xs ih => exact le_trans (ih (min c x)) (min_le_left c x)

theorem foldl_min_le_mem {α : Type} [LinearOrder α] (l : List α) (c : α) :
    ∀ x ∈ l, l.foldl min c ≤ x := by
  induction l generalizing c with
  | nil => intro x hx; cases hx
  | cons y ys ih =>
    intro x hx
    rcases List.mem_cons.mp hx with rfl | hx'
    · exact le_trans (foldl_min_le_init ys (min c x)) (min_le_right c x)
    · exact ih (min c y) x hx'

theorem le_foldl_min {α : Type} [LinearOrder α] {a : α} {l : List α} :
    ∀ {c : α}, a ≤ c → (∀ x ∈ l, a ≤ x) → a ≤ l.foldl min c := by
  induction l with
  | nil => intro c h1 _; exact h1
  | cons y ys ih =>
    intro c h1 h2
    exact ih (le_min h1 (h2 y (by simp))) fun x hx => h2 x (by simp [hx])

theorem init_le_foldl_max {α : Type} [LinearOrder α] (l : List α) (c : α) :
    c ≤ l.foldl max c := by
  induction l generalizing c with
  | nil => exact le_refl c
  | cons x xs ih => exact le_trans (le_max_left c x) (ih (max c x))

theorem mem_le_foldl_max {α : Type} [LinearOrder α] (l : List α) (c : α) :
    ∀ x ∈ l, x ≤ l.foldl max c := by
  induction l generalizing c with
  | nil => intro x hx; cases hx
  | cons y ys ih =>
    intro x hx
    rcases List.mem_cons.mp hx with rfl | hx'
    · exact le_trans (le_max_right c x) (init_le_foldl_max ys (max c x))
    · exact ih (max c y) x hx'

theorem dictInsert_fresh (k : ℤ) (v : ℚ) (acc : List (ℤ × ℚ))
    (h : k ∉ acc.map Prod.fst) : dictInsert k v acc = acc ++ [(k, v)] := by
  induction acc with
  | nil => rfl
  | cons e rest ih =>
    simp only [List.map_cons, List.mem_cons] at h
    push_neg at h
    unfold dictInsert
    rw [if_neg fun he => h.1 he.symm, ih h.2]
    rfl

theorem procLoop_eq (user_ni total : ℚ) :
    ∀ (ps : List ProcessState) (acc : List (ℤ × ℚ)),
    (∀ p ∈ ps, p.cpu ≠ 0) →
    (ps.map ProcessState.pid).Nodup →
    (∀ p ∈ ps, p.pid ∉ acc.map Prod.fst) →
    procLoop user_ni total ps acc = .ok (acc ++ ps.map
      (fun p => (p.pid, orOne (round_by (total / p.cpu) 100) * user_ni))) := by
  intro ps
  induction ps with
  | nil => intro acc _ _ _; simp [procLoop]
  | cons p ps ih =>
    intro acc hcpu hnd hfresh
    simp only [List.map_cons, List.nodup_cons] at hnd
    unfold procLoop
    rw [if_neg (hcpu p (by simp))]
    rw [dictInsert_fresh _ _ _ (hfresh p (by simp))]
    rw [ih (acc ++ [(p.pid, orOne (round_by (total / p.cpu) 100) * user_ni)])
      (fun q hq => hcpu q (by simp [hq])) hnd.2 ?_]
    · simp
    · intro q hq
      simp only [List.map_append, List.mem_append, List.map_cons,
        List.map_nil, List.mem_singleton]
      push_neg
      refine ⟨hfresh q (by simp [hq]), fun hk => ?_⟩
      exact hnd.1 (hk ▸ List.mem_map_of_mem ProcessState.pid hq)

theorem userLoop_eq (m : ℕ) (hm : m ≠ 0) :
    ∀ (stats : List (String × List ProcessState)) (acc : List (ℤ × ℚ)),
    (∀ e ∈ stats, ∀ p ∈ e.2, p.cpu ≠ 0) →
    ((stats.map (fun e => e.2.map ProcessState.pid)).flatten).Nodup →
    (∀ e ∈ stats, ∀ p ∈ e.2, p.pid ∉ acc.map Prod.fst) →
    userLoop m stats acc = .ok (acc ++ rawPriorities m stats) := by
  intro stats
  induction stats with
  | nil => intro acc _ _ _; simp [userLoop, rawPriorities]
  | cons e rest ih =>
    intro acc hcpu hnd hfresh
    simp only [List.map_cons, List.flatten_cons, List.nodup_append] at hnd
    simp only [userLoop]
    rw [if_neg hm]
    rw [procLoop_eq _ _ e.2 acc (hcpu e (by simp)) hnd.1
      (hfresh e (by simp))]
    refine Eq.trans (ih (acc ++ e.2.map (fun p => (p.pid,
        orOne (round_by ((e.2.map ProcessState.cpu).sum / p.cpu) 100) *
          ((e.2.length : ℚ) / (m : ℚ)))))
      (fun e' he' p hp => hcpu e' (by simp [he']) p hp) hnd.2.1 ?_) ?_
    · intro e' he' p hp
      simp only [List.map_append, List.mem_append, List.map_map]
      push_neg
      refine ⟨hfresh e' (by simp [he']) p hp, fun hk => ?_⟩
      have hmem : p.pid ∈ (rest.map (fun e => e.2.map ProcessState.pid)).flatten := by
        simp only [List.mem_flatten, List.mem_map]
        exact ⟨e'.2.map ProcessState.pid, ⟨e', he', rfl⟩,
          List.mem_map_of_mem ProcessState.pid hp⟩
      have hmem' : p.pid ∈ e.2.map ProcessState.pid := by
        simpa using hk
      exact hnd.2.2 hmem' hmem
    · simp only [rawPriorities, List.map_cons, List.flatten_cons,
        ← List.append_assoc]
      rfl

theorem collectRenices_eq :
    ∀ l : List (ℤ × ℤ), (∀ e ∈ l, e.1 ≠ 0) →
    collectRenices l = .ok (l.map fun e => Action.renicePid e.1 e.2) := by
  intro l
  induction l with
  | nil => intro _; rfl
  | cons e rest ih =>
    intro h
    have he : e.1 ≠ 0 := h e (by simp)
    unfold collectRenices
    have hren : renice (some e.1) none e.2 = .ok (.renicePid e.1 e.2) := by
      unfold renice pyFalsy
      simp [he]
    rw [hren, ih fun e' he' => h e' (by simp [he'])]
    simp

/-- Characterization of the fair-share pass on well-formed collected
stats: it succeeds and renices each pid, in iteration order, to the
rescaled-and-rounded raw priority of the spec's formulas. -/
theorem user_cpu_fair_scheduler_eq
    (stats : List (String × List ProcessState))
    (hne : stats ≠ [])
    (hpsne : ∀ e ∈ stats, e.2 ≠ [])
    (hcpu : ∀ e ∈ stats, ∀ p ∈ e.2, p.cpu ≠ 0)
    (hpid0 : ∀ e ∈ stats, ∀ p ∈ e.2, p.pid ≠ 0)
    (hpids : ((stats.map (fun e => e.2.map ProcessState.pid)).flatten).Nodup) :
    user_cpu_fair_scheduler stats =
      .ok ((rawPriorities (minCnt stats) stats).map
        (fun q => Action.renicePid q.1 (final_niceness stats q.2))) := by
  match stats with
  | [] => exact absurd rfl hne
  | s :: ss =>
    have hm : minCnt (s :: ss) ≠ 0 := by
      have h1 : 1 ≤ s.2.length :=
        List.length_pos.mpr (hpsne s (by simp))
      have h2 : ∀ x ∈ ss.map (fun e => e.2.length), 1 ≤ x := by
        intro x hx
        simp only [List.mem_map] at hx
        obtain ⟨e, he, rfl⟩ := hx
        exact List.length_pos.mpr (hpsne e (by simp [he]))
      have h3 := le_foldl_min h1 h2
      have hmc : minCnt (s :: ss) =
          (ss.map (fun e => e.2.length)).foldl min s.2.length := rfl
      omega
    have hloop := userLoop_eq (minCnt (s :: ss)) hm (s :: ss) []
      hcpu hpids (by simp)
    simp only [user_cpu_fair_scheduler]
    rw [show List.foldl min s.2.length (ss.map (fun e => e.2.length)) =
      minCnt (s :: ss) from rfl]
    rw [hloop]
    simp only [List.nil_append]
    have hrawne : rawPriorities (minCnt (s :: ss)) (s :: ss) ≠ [] := by
      unfold rawPriorities
      simp only [List.map_cons, List.flatten_cons, ne_eq,
        List.append_eq_nil, not_and]
      intro hmap
      exact absurd (List.map_eq_nil_iff.mp hmap) (hpsne s (by simp))
    match hraw : rawPriorities (minCnt (s :: ss)) (s :: ss) with
    | [] => exact absurd hraw hrawne
    | q :: qs =>
      have hmax : (qs.map Prod.snd).foldl max q.2 = maxRaw (s :: ss) := by
        unfold maxRaw
        rw [hraw]
      show collectRenices ((q :: qs).map (fun e =>
        (e.1, pyRound (build_rescaler 1 ((qs.map Prod.snd).foldl max q.2)
          0 19 e.2)))) = _
      rw [hmax]
      rw [collectRenices_eq _ ?_]
      · rw [List.map_map]
        rfl
      · intro e' he'
        simp only [List.mem_map] at he'
        obtain ⟨w, hw, rfl⟩ := he'
        have : w ∈ rawPriorities (minCnt (s :: ss)) (s :: ss) := by
          rw [hraw]; exact hw
        unfold rawPriorities at this
        simp only [List.mem_flatten, List.mem_map] at this
        obtain ⟨l, ⟨e, he, rfl⟩, hwl⟩ := this
        simp only [List.mem_map] at hwl
        obtain ⟨p, hp, rfl⟩ := hwl
        exact hpid0 e he p hp

theorem minCnt_ne_zero (stats : List (String × List ProcessState))
    (hne : stats ≠ []) (hpsne : ∀ e ∈ stats, e.2 ≠ []) :
    minCnt stats ≠ 0 := by
  match stats with
  | [] => exact absurd rfl hne
  | s :: ss =>
    have h1 : 1 ≤ s.2.length := List.length_pos.mpr (hpsne s (by simp))
    have h2 : ∀ x ∈ ss.map (fun e => e.2.length), 1 ≤ x := by
      intro x hx
      simp only [List.mem_map] at hx
      obtain ⟨e, he, rfl⟩ := hx
      exact List.length_pos.mpr (hpsne e (by simp [he]))
    have h3 := le_foldl_min h1 h2
    have hmc : minCnt (s :: ss) =
        (ss.map (fun e => e.2.length)).foldl min s.2.length := rfl
    omega

theorem minCnt_le (stats : List (String × List ProcessState))
    (hne : stats ≠ []) : ∀ e ∈ stats, minCnt stats ≤ e.2.length := by
  match stats with
  | [] => exact absurd rfl hne
  | s :: ss =>
    intro e he
    rcases List.mem_cons.mp he with rfl | he'
    · exact foldl_min_le_init _ _
    · exact foldl_min_le_mem _ _ _
        (List.mem_map_of_mem (fun e => e.2.length) he')

theorem mem_rawPriorities {m : ℕ} {stats : List (String × List ProcessState)}
    {w : ℤ × ℚ} :
    w ∈ rawPriorities m stats ↔
      ∃ e ∈ stats, ∃ p ∈ e.2, w = (p.pid, raw_priority m e.2 p) := by
  unfold rawPriorities
  simp only [List.mem_flatten, List.mem_map]
  constructor
  · rintro ⟨l, ⟨e, he, rfl⟩, hw⟩
    simp only [List.mem_map] at hw
    obtain ⟨p, hp, rfl⟩ := hw
    exact ⟨e, he, p, hp, rfl⟩
  · rintro ⟨e, he, p, hp, rfl⟩
    exact ⟨e.2.map (fun p => (p.pid, raw_priority m e.2 p)), ⟨e, he, rfl⟩,
      List.mem_map_of_mem _ hp⟩

theorem le_maxRaw (stats : List (String × List ProcessState)) :
    ∀ w ∈ rawPriorities (minCnt stats) stats, w.2 ≤ maxRaw stats := by
  intro w hw
  unfold maxRaw
  match h : rawPriorities (minCnt stats) stats with
  | [] => rw [h] at hw; cases hw
  | q :: qs =>
    rw [h] at hw
    rcases List.mem_cons.mp hw with rfl | hw'
    · exact init_le_foldl_max _ _
    · exact mem_le_foldl_max _ _ _ (List.mem_map_of_mem Prod.snd hw')

/-- Bounds of the `[1, M] → [0, 19]` rescale used by the fair-share pass,
including the degenerate `M = 1` case. -/
theorem rescale_unit_bounds {M x : ℚ} (h1 : 1 ≤ x) (h2 : x ≤ M) :
    0 ≤ build_rescaler 1 M 0 19 x ∧ build_rescaler 1 M 0 19 x ≤ 19 := by
  unfold build_rescaler
  by_cases hM : (1:ℚ) = M
  · rw [if_pos hM]
    norm_num
  · rw [if_neg hM]
    have hlt : 1 < M := lt_of_le_of_ne (le_trans h1 h2) hM
    have hpos : (0:ℚ) < M - 1 := by linarith
    have hr : (0:ℚ) ≤ (19 - 0) / (M - 1) := by positivity
    have hcancel : (19 - 0) / (M - 1) * (M - 1) = 19 - 0 :=
      div_mul_cancel₀ _ (ne_of_gt hpos)
    have hmono : (19 - 0) / (M - 1) * (x - 1) ≤ (19 - 0) / (M - 1) * (M - 1) :=
      mul_le_mul_of_nonneg_left (by linarith) hr
    have hnn := mul_nonneg hr (by linarith : (0:ℚ) ≤ x - 1)
    constructor <;> linarith

theorem orOne_round_by_ge_one {x : ℚ} (hx : 0 ≤ x) :
    1 ≤ orOne (round_by x 100) := by
  unfold orOne round_by
  have hq : ((0:ℤ):ℚ) ≤ x / 100 := by positivity
  have hn : 0 ≤ pyRound (x / 100) := le_pyRound hq
  split
  · norm_num
  · rename_i h
    have hne : pyRound (x / 100) ≠ 0 := by
      intro h0
      exact h (by rw [h0]; norm_num)
    have h1 : 1 ≤ pyRound (x / 100) := by omega
    have h1q : (1:ℚ) ≤ (pyRound (x / 100) : ℚ) := by exact_mod_cast h1
    nlinarith

theorem user_weight_ge_one {m : ℕ} {ps : List ProcessState}
    (hm : m ≠ 0) (hlen : m ≤ ps.length) : 1 ≤ user_weight m ps := by
  unfold user_weight
  have hmq : (0:ℚ) < (m : ℚ) := by exact_mod_cast Nat.pos_of_ne_zero hm
  exact (one_le_div hmq).mpr (by exact_mod_cast hlen)

theorem one_le_raw_priority {m : ℕ} {ps : List ProcessState}
    {p : ProcessState} (hm : m ≠ 0) (hlen : m ≤ ps.length) (hp : p ∈ ps)
    (hpos : ∀ q ∈ ps, 0 < q.cpu) : 1 ≤ raw_priority m ps p := by
  unfold raw_priority process_weight
  have hsum : (0:ℚ) ≤ (ps.map ProcessState.cpu).sum := by
    apply List.sum_nonneg
    intro x hx
    simp only [List.mem_map] at hx
    obtain ⟨q, hq, rfl⟩ := hx
    exact (hpos q hq).le
  have h1 : 1 ≤ orOne (round_by ((ps.map ProcessState.cpu).sum / p.cpu) 100) :=
    orOne_round_by_ge_one (div_nonneg hsum (hpos p hp).le)
  have h2 := user_weight_ge_one hm hlen
  nlinarith

/-- C9: on a non-empty stats map whose process samples all have positive
CPU (and well-formed pids), the fair-share pass succeeds and every action
it issues is a renice by pid to an integer niceness in `[0, 19]`,
including the degenerate case where every raw priority is `1`. -/
theorem fair_scheduler_niceness_in_range
    (stats : List (String × List ProcessState))
    (hne : stats ≠ [])
    (hpsne : ∀ e ∈ stats, e.2 ≠ [])
    (hcpu : ∀ e ∈ stats, ∀ p ∈ e.2, 0 < p.cpu)
    (hpid0 : ∀ e ∈ stats, ∀ p ∈ e.2, p.pid ≠ 0)
    (hpids : ((stats.map (fun e => e.2.map ProcessState.pid)).flatten).Nodup) :
    ∃ acts, user_cpu_fair_scheduler stats = .ok acts ∧
      ∀ a ∈ acts, ∃ pid pri, a = Action.renicePid pid pri ∧
        0 ≤ pri ∧ pri ≤ 19 := by
  have hmaster := user_cpu_fair_scheduler_eq stats hne hpsne
    (fun e he p hp => ne_of_gt (hcpu e he p hp)) hpid0 hpids
  refine ⟨_, hmaster, ?_⟩
  intro a ha
  simp only [List.mem_map] at ha
  obtain ⟨w, hw, rfl⟩ := ha
  refine ⟨w.1, final_niceness stats w.2, rfl, ?_, ?_⟩
  all_goals
    obtain ⟨e, he, p, hp, rfl⟩ := mem_rawPriorities.mp hw
    have h1 : 1 ≤ raw_priority (minCnt stats) e.2 p :=
      one_le_raw_priority (minCnt_ne_zero stats hne hpsne)
        (minCnt_le stats hne e he) hp (hcpu e he)
    have h2 := le_maxRaw stats _ hw
    have hb := rescale_unit_bounds h1 h2
    unfold final_niceness
  · exact le_pyRound (by exact_mod_cast hb.1)
  · exact pyRound_le (by exact_mod_cast hb.2)

/-- Witness for `fair_scheduler_niceness_in_range`: the spec's end-to-end
scenario — user `a` with two processes at CPU 10 each, user `b` with one
at CPU 40. -/
theorem fair_scheduler_niceness_in_range_witness :
    ∃ acts, user_cpu_fair_scheduler
      [("a", [⟨1, "a", "20", "0", "1", "1", "1", "S", 10, 1, "python"⟩,
              ⟨2, "a", "20", "0", "1", "1", "1", "S", 10, 1, "python"⟩]),
       ("b", [⟨3, "b", "20", "0", "1", "1", "1", "S", 40, 1, "python"⟩])] =
      .ok acts ∧
      ∀ a ∈ acts, ∃ pid pri, a = Action.renicePid pid pri ∧
        0 ≤ pri ∧ pri ≤ 19 :=
  fair_scheduler_niceness_in_range _
    (by decide)
    (by decide)
    (by norm_num)
    (by decide)
    (by decide)

/-- C2: on a non-empty stats map of positive-CPU samples, the fair-share
pass renices each pid to the spec's value: raw priority
`process_weight * user_weight` (with `user_weight =
user_process_count / min_user_processes` and `process_weight =
round_to_nearest_multiple(total_user_cpu / process_cpu, 100)` floored to
`1`), all raw priorities rescaled from `[1, max]` to `[0, 19]` and
rounded; a user with the fewest processes gets weight `1`. -/
theorem fair_scheduler_computes_spec_formula
    (stats : List (String × List ProcessState))
    (hne : stats ≠ [])
    (hpsne : ∀ e ∈ stats, e.2 ≠ [])
    (hcpu : ∀ e ∈ stats, ∀ p ∈ e.2, 0 < p.cpu)
    (hpid0 : ∀ e ∈ stats, ∀ p ∈ e.2, p.pid ≠ 0)
    (hpids : ((stats.map (fun e => e.2.map ProcessState.pid)).flatten).Nodup) :
    ∃ acts, user_cpu_fair_scheduler stats = .ok acts ∧
      acts = (rawPriorities (minCnt stats) stats).map
        (fun w => Action.renicePid w.1 (final_niceness stats w.2)) ∧
      (∀ e ∈ stats, ∀ p ∈ e.2,
        Action.renicePid p.pid (final_niceness stats
          (process_weight e.2 p * user_weight (minCnt stats) e.2)) ∈ acts) ∧
      (∀ e ∈ stats, e.2.length = minCnt stats →
        user_weight (minCnt stats) e.2 = 1) := by
  have hmaster := user_cpu_fair_scheduler_eq stats hne hpsne
    (fun e he p hp => ne_of_gt (hcpu e he p hp)) hpid0 hpids
  refine ⟨_, hmaster, rfl, ?_, ?_⟩
  · intro e he p hp
    have hw : (p.pid, raw_priority (minCnt stats) e.2 p) ∈
        rawPriorities (minCnt stats) stats :=
      mem_rawPriorities.mpr ⟨e, he, p, hp, rfl⟩
    exact List.mem_map_of_mem
      (fun w => Action.renicePid w.1 (final_niceness stats w.2)) hw
  · intro e he hlen
    unfold user_weight
    rw [hlen]
    have hm : (minCnt stats : ℚ) ≠ 0 := by
      exact_mod_cast minCnt_ne_zero stats hne hpsne
    exact div_self hm

/-- Witness for `fair_scheduler_computes_spec_formula`, on the spec's
end-to-end scenario stats. -/
theorem fair_scheduler_computes_spec_formula_witness :
    ∃ acts, user_cpu_fair_scheduler
      [("a", [⟨1, "a", "20", "0", "1", "1", "1", "S", 10, 1, "python"⟩,
              ⟨2, "a", "20", "0", "1", "1", "1", "S", 10, 1, "python"⟩]),
       ("b", [⟨3, "b", "20", "0", "1", "1", "1", "S", 40, 1, "python"⟩])] =
      .ok acts ∧
      acts ≠ [] := by
  obtain ⟨acts, hok, hacts, hmem, -⟩ := fair_scheduler_computes_spec_formula
    [("a", [⟨1, "a", "20", "0", "1", "1", "1", "S", 10, 1, "python"⟩,
            ⟨2, "a", "20", "0", "1", "1", "1", "S", 10, 1, "python"⟩]),
     ("b", [⟨3, "b", "20", "0", "1", "1", "1", "S", 40, 1, "python"⟩])]
    (by decide) (by decide) (by norm_num) (by decide) (by decide)
  refine ⟨acts, hok, ?_⟩
  intro hnil
  have := hmem ("a", [⟨1, "a", "20", "0", "1", "1", "1", "S", 10, 1, "python"⟩,
      ⟨2, "a", "20", "0", "1", "1", "1", "S", 10, 1, "python"⟩]) (by simp)
    ⟨1, "a", "20", "0", "1", "1", "1", "S", 10, 1, "python"⟩ (by simp)
  rw [hnil] at this
  cases this

/-- C10: the collector's filter discards every sample below 10% CPU, so
every collected sample has positive CPU; on stats of positive-CPU samples
the fair-share pass is total (no division by zero); and on a sample with
zero CPU it raises. -/
theorem collector_filter_makes_divisions_safe
    (pid_to_user : List (ℤ × String)) (rows : List ProcessState) :
    (∀ p ∈ process_states pid_to_user rows, (10:ℚ) ≤ p.cpu ∧ 0 < p.cpu) ∧
    (∀ stats : List (String × List ProcessState), stats ≠ [] →
      (∀ e ∈ stats, e.2 ≠ []) →
      (∀ e ∈ stats, ∀ p ∈ e.2, 0 < p.cpu) →
      (∀ e ∈ stats, ∀ p ∈ e.2, p.pid ≠ 0) →
      ((stats.map (fun e => e.2.map ProcessState.pid)).flatten).Nodup →
      ∃ acts, user_cpu_fair_scheduler stats = .ok acts) ∧
    user_cpu_fair_scheduler
      [("a", [⟨5, "a", "20", "0", "1", "1", "1", "S", 0, 1, "python"⟩])] =
      .error () := by
  refine ⟨?_, ?_, ?_⟩
  · intro p hp
    unfold process_states at hp
    simp only [List.mem_map] at hp
    obtain ⟨q, hq, rfl⟩ := hp
    rw [List.mem_filter] at hq
    have hv := hq.2
    unfold valid_process_state at hv
    rw [Bool.and_eq_true, Bool.not_eq_true', decide_eq_false_iff_not,
      not_lt] at hv
    have hcpu10 : (10:ℚ) ≤ q.cpu := hv.2
    cases hfind : pid_to_user.find? (fun e => e.1 == q.pid) with
    | none => exact ⟨hcpu10, lt_of_lt_of_le (by norm_num) hcpu10⟩
    | some e => exact ⟨hcpu10, lt_of_lt_of_le (by norm_num) hcpu10⟩
  · intro stats hne hpsne hcpu hpid0 hpids
    exact ⟨_, user_cpu_fair_scheduler_eq stats hne hpsne
      (fun e he p hp => ne_of_gt (hcpu e he p hp)) hpid0 hpids⟩
  · rfl

/-- Witness for `collector_filter_makes_divisions_safe` at a concrete
pid listing and row set: a 5%-CPU row is dropped, a 50%-CPU row kept. -/
theorem collector_filter_makes_divisions_safe_witness :
    ∀ p ∈ process_states [(1, "alice"), (2, "bob")]
      [⟨1, "alice", "20", "0", "1", "1", "1", "S", 50, 1, "python"⟩,
       ⟨2, "bob", "20", "0", "1", "1", "1", "S", 5, 1, "python"⟩],
      (10:ℚ) ≤ p.cpu ∧ 0 < p.cpu :=
  (collector_filter_makes_divisions_safe [(1, "alice"), (2, "bob")]
    [⟨1, "alice", "20", "0", "1", "1", "1", "S", 50, 1, "python"⟩,
     ⟨2, "bob", "20", "0", "1", "1", "1", "S", 5, 1, "python"⟩]).1

/-- C1: whenever the loop stops — shutdown flag observed during sleep or
an exception during a cycle — the issued actions are the cycle actions
followed by exactly one restore pass, which issues a `renice` to
niceness `0` for every managed process; while the loop has not stopped,
no restore action is issued. -/
theorem run_restores_on_every_exit (cpu_intervene : ℚ)
    (sched : List (String × List ProcessState) → Except Unit (List Action))
    (inputs : List CycleInput)
    (final_stats : List (String × List ProcessState))
    (hpid0 : ∀ e ∈ final_stats, ∀ p ∈ e.2, p.pid ≠ 0) :
    ((run cpu_intervene sched inputs final_stats).2 = true →
      (run cpu_intervene sched inputs final_stats).1 =
        (runCycles cpu_intervene sched inputs).1 ++
          (final_stats.map (fun e =>
            e.2.map (fun p => Action.renicePid p.pid 0))).flatten ∧
      (∀ e ∈ final_stats, ∀ p ∈ e.2,
        Action.renicePid p.pid 0 ∈
          (run cpu_intervene sched inputs final_stats).1)) ∧
    ((run cpu_intervene sched inputs final_stats).2 = false →
      (run cpu_intervene sched inputs final_stats).1 =
        (runCycles cpu_intervene sched inputs).1) := by
  have hfresh : ∀ w ∈ (final_stats.map (fun e =>
      e.2.map (fun p => (p.pid, (0:ℤ))))).flatten, w.1 ≠ 0 := by
    intro w hw
    simp only [List.mem_flatten, List.mem_map] at hw
    obtain ⟨l, ⟨e, he, rfl⟩, hwl⟩ := hw
    simp only [List.mem_map] at hwl
    obtain ⟨p, hp, rfl⟩ := hwl
    exact hpid0 e he p hp
  have hnone : none_scheduler final_stats = .ok ((final_stats.map (fun e =>
      e.2.map (fun p => Action.renicePid p.pid 0))).flatten) := by
    unfold none_scheduler
    rw [collectRenices_eq _ hfresh, List.map_flatten, List.map_map]
    congr 1
    congr 1
    congr 1
    funext e
    simp only [Function.comp_apply, List.map_map]
    rfl
  constructor
  · intro hstop
    unfold run at hstop ⊢
    by_cases hr : (runCycles cpu_intervene sched inputs).2 = true
    · rw [if_pos hr, hnone] at hstop ⊢
      refine ⟨rfl, ?_⟩
      intro e he p hp
      show Action.renicePid p.pid 0 ∈ _ ++ _
      rw [List.mem_append]
      right
      simp only [List.mem_flatten, List.mem_map]
      exact ⟨e.2.map (fun p => Action.renicePid p.pid 0), ⟨e, he, rfl⟩,
        List.mem_map_of_mem _ hp⟩
    · rw [if_neg hr] at hstop
      exact absurd hstop hr
  · intro hrun
    unfold run at hrun ⊢
    by_cases hr : (runCycles cpu_intervene sched inputs).2 = true
    · rw [if_pos hr, hnone] at hrun
      cases hrun
    · rw [if_neg hr]

/-- Witness for `run_restores_on_every_exit`: one busy cycle whose sleep
observes the shutdown flag; the restore renices pid 1 to 0. -/
theorem run_restores_on_every_exit_witness :
    Action.renicePid 1 0 ∈
      (run 20 (fun _ => .ok []) [⟨25, [], true⟩]
        [("a", [⟨1, "a", "20", "0", "1", "1", "1", "S", 50, 1, "python"⟩])]).1 :=
  ((run_restores_on_every_exit 20 (fun _ => .ok []) [⟨25, [], true⟩]
      [("a", [⟨1, "a", "20", "0", "1", "1", "1", "S", 50, 1, "python"⟩])]
      (by decide)).1 (by rfl)).2
    ("a", [⟨1, "a", "20", "0", "1", "1", "1", "S", 50, 1, "python"⟩])
    (by simp)
    ⟨1, "a", "20", "0", "1", "1", "1", "S", 50, 1, "python"⟩ (by simp)

end SIEAdmin
